import Mathlib

/-!
Verification of the Timeline and Caption Animation Engine of the
viral-shorts-generator repository.

The Python source is shallowly embedded: timestamps (Python floats carrying
exact decimal constants) are modelled as rationals, dictionaries as
structures, and loops as folds or structural recursion.  Each definition is
translated from the function of the source file named in its doc comment.
-/

namespace ViralShorts

/-- A transcript word: dictionary with keys start, end, word.  The source key
end is spelled stop here because end is a reserved keyword. -/
structure Word where
  start : ℚ
  stop : ℚ
  word : String
deriving DecidableEq, Repr

/-- A transcript segment: dictionary with keys start, end, text and an
optional words list (the source tests membership of the words key). -/
structure Segment where
  start : ℚ
  stop : ℚ
  text : String
  words : Option (List Word)
deriving DecidableEq, Repr

/-- Rebasing of one word, from src/main.py lines 160-168: the adjusted word
dictionary built inside get_segments_for_timerange. -/
def adjustWord (start_time end_time : ℚ) (w : Word) : Word :=
  Word.mk (max 0 (w.start - start_time)) (min (end_time - start_time) (w.stop - start_time)) w.word

/-- src/main.py lines 142-174, get_segments_for_timerange: filter the
segments overlapping the window and rebase their timestamps (and those of
their words, when the words key is present) to clip-local coordinates. -/
def get_segments_for_timerange (segments : List Segment) (start_time end_time : ℚ) :
    List Segment :=
  segments.filterMap fun seg =>
    if seg.stop ≥ start_time ∧ seg.start ≤ end_time then
      some (Segment.mk
        (max 0 (seg.start - start_time))
        (min (end_time - start_time) (seg.stop - start_time))
        seg.text
        (seg.words.map fun ws =>
          ws.filterMap fun w =>
            if w.stop ≥ start_time ∧ w.start ≤ end_time then
              some (adjustWord start_time end_time w)
            else none))
    else none

/-- Spec-side definition (section 4.2 of the spec): the inclusion test for a
segment, written from the words of the spec. -/
def includeSegSpec (windowStart windowEnd : ℚ) (s : Segment) : Bool :=
  decide (s.stop ≥ windowStart ∧ s.start ≤ windowEnd)

/-- Spec-side definition: the inclusion test for a word. -/
def includeWordSpec (windowStart windowEnd : ℚ) (w : Word) : Bool :=
  decide (w.stop ≥ windowStart ∧ w.start ≤ windowEnd)

/-- Spec-side definition: rebasing of a word, written from the words of the
spec. -/
def rebaseWordSpec (windowStart windowEnd : ℚ) (w : Word) : Word :=
  Word.mk (max 0 (w.start - windowStart)) (min (windowEnd - windowStart) (w.stop - windowStart))
    w.word

/-- Spec-side definition: rebasing of an included segment, written from the
words of the spec (start and end shifted and clamped, text copied, words
filtered by the identical test and rebased by the identical formula). -/
def rebaseSegSpec (windowStart windowEnd : ℚ) (s : Segment) : Segment :=
  Segment.mk (max 0 (s.start - windowStart))
    (min (windowEnd - windowStart) (s.stop - windowStart))
    s.text
    (s.words.map fun ws =>
      (ws.filter (includeWordSpec windowStart windowEnd)).map
        (rebaseWordSpec windowStart windowEnd))

/-- A filterMap whose body is an if-then-some-else-none is a filter followed
by a map. -/
theorem filterMap_ite_eq_filter_map {α β : Type} (p : α → Prop) [DecidablePred p] (f : α → β)
    (l : List α) :
    (l.filterMap fun a => if p a then some (f a) else none) =
      (l.filter fun a => decide (p a)).map f := by
  induction l with
  | nil => rfl
  | cons a t ih =>
    by_cases h : p a <;> simp [List.filterMap_cons, List.filter_cons, h, ih]

/-- The extractor is exactly: filter by the overlap test, then rebase, in
input order. -/
theorem extract_eq_filter_map (segments : List Segment) (windowStart windowEnd : ℚ) :
    get_segments_for_timerange segments windowStart windowEnd =
      (segments.filter (includeSegSpec windowStart windowEnd)).map
        (rebaseSegSpec windowStart windowEnd) := by
  have hbody : ∀ seg : Segment,
      (if seg.stop ≥ windowStart ∧ seg.start ≤ windowEnd then
        some (Segment.mk
          (max 0 (seg.start - windowStart))
          (min (windowEnd - windowStart) (seg.stop - windowStart))
          seg.text
          (seg.words.map fun ws =>
            ws.filterMap fun w =>
              if w.stop ≥ windowStart ∧ w.start ≤ windowEnd then
                some (adjustWord windowStart windowEnd w)
              else none))
       else none) =
      (if seg.stop ≥ windowStart ∧ seg.start ≤ windowEnd then
        some (rebaseSegSpec windowStart windowEnd seg) else none) := by
    intro seg
    by_cases h : seg.stop ≥ windowStart ∧ seg.start ≤ windowEnd
    · rw [if_pos h, if_pos h]
      unfold rebaseSegSpec
      congr 2
      refine congrArg (fun f => Option.map f seg.words) ?_
      funext ws
      rw [filterMap_ite_eq_filter_map (fun w : Word => w.stop ≥ windowStart ∧ w.start ≤ windowEnd)
        (adjustWord windowStart windowEnd) ws]
      rfl
    · rw [if_neg h, if_neg h]
  unfold get_segments_for_timerange
  rw [funext hbody]
  exact filterMap_ite_eq_filter_map
    (fun seg : Segment => seg.stop ≥ windowStart ∧ seg.start ≤ windowEnd)
    (rebaseSegSpec windowStart windowEnd) segments

/-- C1: for every segment sequence and every window with windowEnd >
windowStart, the extractor includes a segment iff segment.end ≥ windowStart
and segment.start ≤ windowEnd, rebases each included segment (and each of its
words, under the identical test and formula) with text unchanged and order
preserved; the worked example: the segment (5,10) with words Hello (5,7) and
world (7,10), extracted against the window (5,15), yields the rebased words
(0,2) Hello and (2,5) world. -/
theorem extract_window_rebase_correct (segments : List Segment) (windowStart windowEnd : ℚ)
    (_hwin : windowStart < windowEnd) :
    get_segments_for_timerange segments windowStart windowEnd =
      (segments.filter (includeSegSpec windowStart windowEnd)).map
        (rebaseSegSpec windowStart windowEnd) ∧
    get_segments_for_timerange
        [Segment.mk 5 10 "Hello world" (some [Word.mk 5 7 "Hello", Word.mk 7 10 "world"])] 5 15 =
      [Segment.mk 0 5 "Hello world" (some [Word.mk 0 2 "Hello", Word.mk 2 5 "world"])] :=
  ⟨extract_eq_filter_map segments windowStart windowEnd, by
    simp [get_segments_for_timerange, List.filterMap_cons, adjustWord]
    norm_num⟩

/-- Witness for C1 at the concrete window (5,15). -/
theorem extract_window_rebase_correct_witness :
    get_segments_for_timerange
        [Segment.mk 5 10 "Hello world" (some [Word.mk 5 7 "Hello", Word.mk 7 10 "world"])] 5 15 =
      [Segment.mk 0 5 "Hello world" (some [Word.mk 0 2 "Hello", Word.mk 2 5 "world"])] :=
  (extract_window_rebase_correct [] 5 15 (by norm_num)).2

/-- Well-formedness of an input word: 0 ≤ start ≤ end. -/
def wfWord (w : Word) : Prop := 0 ≤ w.start ∧ w.start ≤ w.stop

/-- Well-formedness of an input segment: 0 ≤ start ≤ end, and every carried
word well-formed. -/
def wfSegment (s : Segment) : Prop :=
  0 ≤ s.start ∧ s.start ≤ s.stop ∧ ∀ w ∈ s.words.getD [], wfWord w

instance (w : Word) : Decidable (wfWord w) :=
  inferInstanceAs (Decidable (0 ≤ w.start ∧ w.start ≤ w.stop))

instance (s : Segment) : Decidable (wfSegment s) :=
  inferInstanceAs (Decidable (0 ≤ s.start ∧ s.start ≤ s.stop ∧ ∀ w ∈ s.words.getD [], wfWord w))

/-- A word lies inside the clip-local coordinate range of length len. -/
def wordInRange (len : ℚ) (w : Word) : Prop := 0 ≤ w.start ∧ w.start ≤ w.stop ∧ w.stop ≤ len

/-- A segment, with all its words, lies inside the clip-local coordinate
range of length len. -/
def segmentInRange (len : ℚ) (s : Segment) : Prop :=
  0 ≤ s.start ∧ s.start ≤ s.stop ∧ s.stop ≤ len ∧ ∀ w ∈ s.words.getD [], wordInRange len w

instance (len : ℚ) (w : Word) : Decidable (wordInRange len w) :=
  inferInstanceAs (Decidable (0 ≤ w.start ∧ w.start ≤ w.stop ∧ w.stop ≤ len))

instance (len : ℚ) (s : Segment) : Decidable (segmentInRange len s) :=
  inferInstanceAs (Decidable
    (0 ≤ s.start ∧ s.start ≤ s.stop ∧ s.stop ≤ len ∧ ∀ w ∈ s.words.getD [], wordInRange len w))

/-- C10: with a valid window and well-formed input, every output segment and
every output word satisfies 0 ≤ start ≤ end ≤ windowEnd − windowStart. -/
theorem extract_output_in_range (segments : List Segment) (windowStart windowEnd : ℚ)
    (hwin : windowStart < windowEnd) (hwf : ∀ s ∈ segments, wfSegment s) :
    ∀ s ∈ get_segments_for_timerange segments windowStart windowEnd,
      segmentInRange (windowEnd - windowStart) s := by
  intro s hs
  rw [extract_eq_filter_map] at hs
  rcases List.mem_map.mp hs with ⟨s0, hs0, rfl⟩
  rcases List.mem_filter.mp hs0 with ⟨hs0mem, hincl⟩
  have hwf0 := hwf s0 hs0mem
  have hinc : s0.stop ≥ windowStart ∧ s0.start ≤ windowEnd := by
    have := of_decide_eq_true hincl
    exact this
  obtain ⟨h0s, hse, hwords⟩ := hwf0
  refine ⟨le_max_left 0 _, ?_, ?_, ?_⟩
  · refine max_le (le_min ?_ ?_) (le_min ?_ ?_) <;> linarith [hinc.1, hinc.2]
  · exact min_le_left _ _
  · intro w hw
    unfold rebaseSegSpec at hw
    simp only at hw
    cases hws : s0.words with
    | none => rw [hws] at hw; simp at hw
    | some ws0 =>
      rw [hws] at hw
      simp only [Option.map_some', Option.getD_some] at hw
      rcases List.mem_map.mp hw with ⟨w0, hw0, rfl⟩
      rcases List.mem_filter.mp hw0 with ⟨hw0mem, hw0incl⟩
      have hwinc : w0.stop ≥ windowStart ∧ w0.start ≤ windowEnd :=
        of_decide_eq_true hw0incl
      have hwfw : wfWord w0 := hwords w0 (by rw [hws]; exact hw0mem)
      obtain ⟨hw0s, hw0e⟩ := hwfw
      refine ⟨le_max_left 0 _, ?_, ?_⟩
      · refine max_le (le_min ?_ ?_) (le_min ?_ ?_) <;> linarith [hwinc.1, hwinc.2]
      · exact min_le_left _ _

/-- Witness for C10 at the concrete window (5,15): the rebased example
segment and both of its words lie inside [0, 10]. -/
theorem extract_output_in_range_witness :
    segmentInRange 10 (Segment.mk 0 5 "Hello world" (some [Word.mk 0 2 "Hello", Word.mk 2 5 "world"])) := by
  have hmem :
      Segment.mk 0 5 "Hello world" (some [Word.mk 0 2 "Hello", Word.mk 2 5 "world"]) ∈
        get_segments_for_timerange
          [Segment.mk 5 10 "Hello world" (some [Word.mk 5 7 "Hello", Word.mk 7 10 "world"])] 5 15 := by
    rw [extract_window_rebase_correct_witness]
    exact List.mem_singleton.mpr rfl
  have h10 : (10 : ℚ) = 15 - 5 := by norm_num
  rw [h10]
  exact extract_output_in_range
    [Segment.mk 5 10 "Hello world" (some [Word.mk 5 7 "Hello", Word.mk 7 10 "world"])] 5 15
    (by norm_num)
    (by decide)
    _ hmem

/-- C7 counterexample: called with the invalid window (10,5) the extractor
does not fail; it silently returns output, and that output is wrong (the
returned segment has end < start). -/
theorem extract_invalid_window_returns_output :
    get_segments_for_timerange [Segment.mk 0 20 "x" none] 10 5 =
      [Segment.mk 0 (-5) "x" none] ∧
    (Segment.mk 0 (-5) "x" none).stop < (Segment.mk 0 (-5) "x" none).start := by
  constructor
  · simp [get_segments_for_timerange, List.filterMap_cons]
    norm_num
  · norm_num

/-- C7 amended: the extractor performs no validation of the window range; for
every window, valid or not, it totally computes the overlap-filter-and-rebase
result, and for an invalid window (windowEnd ≤ windowStart) it can silently
return a segment whose end precedes its start. -/
theorem extract_no_window_validation :
    (∀ (segments : List Segment) (windowStart windowEnd : ℚ),
      get_segments_for_timerange segments windowStart windowEnd =
        (segments.filter (includeSegSpec windowStart windowEnd)).map
          (rebaseSegSpec windowStart windowEnd)) ∧
    ((10 : ℚ) > 5 ∧
      ∃ s ∈ get_segments_for_timerange [Segment.mk 0 20 "x" none] 10 5, s.stop < s.start) := by
  refine ⟨extract_eq_filter_map, by norm_num, Segment.mk 0 (-5) "x" none, ?_, by norm_num⟩
  have h : get_segments_for_timerange [Segment.mk 0 20 "x" none] 10 5 =
      [Segment.mk 0 (-5) "x" none] := by
    simp [get_segments_for_timerange, List.filterMap_cons]
    norm_num
  rw [h]
  exact List.mem_singleton.mpr rfl

/-- An AI-suggested hook: dictionary produced by the LLM collaborator. -/
structure Hook where
  start_time : ℚ
  end_time : ℚ
  hook_text : String
  virality_score : ℤ
  hook_type : String
  reason : String
deriving DecidableEq, Repr

/-- src/hook_analyzer.py lines 139-142: scan segments in input order and
replace the start time with the start of the first segment within the 2.0
second tolerance; keep the original when none matches. -/
def snapStart (segments : List Segment) (t : ℚ) : ℚ :=
  match segments.find? (fun s => decide (|s.start - t| < 2)) with
  | some s => s.start
  | none => t

/-- src/hook_analyzer.py lines 144-147: scan segments in reverse order and
replace the end time with the end of the first such segment within the 2.0
second tolerance; keep the original when none matches. -/
def snapEnd (segments : List Segment) (t : ℚ) : ℚ :=
  match segments.reverse.find? (fun s => decide (|s.stop - t| < 2)) with
  | some s => s.stop
  | none => t

/-- src/hook_analyzer.py lines 125-156, _refine_timestamps body for one hook:
snap both boundaries, then apply the duration policy (duration < 10 forces
end = start + 15; duration > 60 forces end = start + 60). -/
def refineHook (segments : List Segment) (h : Hook) : Hook :=
  let s := snapStart segments h.start_time
  let e := snapEnd segments h.end_time
  let d := e - s
  let e2 := if d < 10 then s + 15 else if d > 60 then s + 60 else e
  Hook.mk s e2 h.hook_text h.virality_score h.hook_type h.reason

/-- src/hook_analyzer.py _refine_timestamps: the per-hook refinement applied
to the whole list, preserving input order. -/
def refineTimestamps (hooks : List Hook) (segments : List Segment) : List Hook :=
  hooks.map (refineHook segments)

/-- C2: after boundary snapping with snapped start s and snapped end e and
d = e − s, the refiner forces end to s + 15 when d < 10, to s + 60 when
d > 60, and leaves it at e otherwise; the refined duration always lies in
[10, 60]. -/
theorem refine_duration_policy (segments : List Segment) (h : Hook) (s e : ℚ)
    (hs : s = snapStart segments h.start_time) (he : e = snapEnd segments h.end_time) :
    (refineHook segments h).start_time = s ∧
    (e - s < 10 → (refineHook segments h).end_time = s + 15) ∧
    (e - s > 60 → (refineHook segments h).end_time = s + 60) ∧
    (10 ≤ e - s → e - s ≤ 60 → (refineHook segments h).end_time = e) ∧
    10 ≤ (refineHook segments h).end_time - (refineHook segments h).start_time ∧
    (refineHook segments h).end_time - (refineHook segments h).start_time ≤ 60 := by
  subst hs he
  have hstart : (refineHook segments h).start_time = snapStart segments h.start_time := rfl
  have hend : (refineHook segments h).end_time =
      if snapEnd segments h.end_time - snapStart segments h.start_time < 10
      then snapStart segments h.start_time + 15
      else if snapEnd segments h.end_time - snapStart segments h.start_time > 60
      then snapStart segments h.start_time + 60
      else snapEnd segments h.end_time := rfl
  refine ⟨hstart, ?_⟩
  rw [hend, hstart]
  split_ifs with h1 h2
  · exact ⟨fun _ => rfl, fun hc => absurd hc (by linarith), fun hc _ => absurd h1 (by linarith),
      by linarith, by linarith⟩
  · exact ⟨fun hc => absurd hc h1, fun _ => rfl, fun _ hc => absurd h2 (by linarith),
      by linarith, by linarith⟩
  · push_neg at h1 h2
    exact ⟨fun hc => absurd hc (by linarith), fun hc => absurd hc (by linarith), fun _ _ => rfl,
      by linarith, by linarith⟩

/-- Witness for C2: a hook (0,5) with no segments snaps to itself, has
duration 5 < 10, and is forced to end time 0 + 15. -/
theorem refine_duration_policy_witness :
    (refineHook [] (Hook.mk 0 5 "" 5 "" "")).end_time = 0 + 15 :=
  (refine_duration_policy [] (Hook.mk 0 5 "" 5 "" "") 0 5 rfl rfl).2.1 (by norm_num)

/-- find? returns the first element of the list satisfying the predicate. -/
theorem find?_prefix_first {α : Type} (p : α → Bool) (pre : List α) (x : α) (post : List α)
    (hpre : ∀ y ∈ pre, p y = false) (hx : p x = true) :
    List.find? p (pre ++ x :: post) = some x := by
  induction pre with
  | nil => rw [List.nil_append, List.find?_cons_of_pos _ hx]
  | cons a t ih =>
    have ha : p a = false := hpre a (List.mem_cons_self a t)
    rw [List.cons_append, List.find?_cons_of_neg _ (by simp [ha]), ih]
    intro y hy
    exact hpre y (List.mem_cons_of_mem a hy)

/-- C3: start snapping takes the start of the first segment, in input order,
within strict 2.0 tolerance of the suggested start; end snapping takes the
end of the first segment in reverse order within strict 2.0 tolerance of the
suggested end; with no match the suggested timestamp is kept; and the refiner
uses exactly these snapped boundaries. -/
theorem refine_boundary_snapping (segments : List Segment) (h : Hook) (t : ℚ) :
    ((∀ s ∈ segments, ¬ |s.start - t| < 2) → snapStart segments t = t) ∧
    (∀ pre x post, segments = pre ++ x :: post → |x.start - t| < 2 →
      (∀ y ∈ pre, ¬ |y.start - t| < 2) → snapStart segments t = x.start) ∧
    ((∀ s ∈ segments, ¬ |s.stop - t| < 2) → snapEnd segments t = t) ∧
    (∀ pre x post, segments = pre ++ x :: post → |x.stop - t| < 2 →
      (∀ y ∈ post, ¬ |y.stop - t| < 2) → snapEnd segments t = x.stop) ∧
    (refineHook segments h).start_time = snapStart segments h.start_time := by
  refine ⟨?_, ?_, ?_, ?_, rfl⟩
  · intro hnone
    unfold snapStart
    rw [List.find?_eq_none.mpr fun s hes => by simpa using hnone s hes]
  · intro pre x post hseg hx hpre
    unfold snapStart
    rw [hseg, find?_prefix_first _ pre x post
      (fun y hy => by simpa using hpre y hy) (by simpa using hx)]
  · intro hnone
    unfold snapEnd
    rw [List.find?_eq_none.mpr fun s hes => by
      simpa using hnone s (List.mem_reverse.mp hes)]
  · intro pre x post hseg hx hpost
    unfold snapEnd
    have hrev : segments.reverse = post.reverse ++ x :: pre.reverse := by
      rw [hseg]; simp
    rw [hrev, find?_prefix_first _ post.reverse x pre.reverse
      (fun y hy => by simpa using hpost y (List.mem_reverse.mp hy)) (by simpa using hx)]

/-- Witness for C3: with segments starting at 5 and 6, a suggested start of 4
snaps to the first tolerant segment start, 5. -/
theorem refine_boundary_snapping_witness :
    snapStart [Segment.mk 5 9 "" none, Segment.mk 6 12 "" none] 4 = 5 :=
  (refine_boundary_snapping [Segment.mk 5 9 "" none, Segment.mk 6 12 "" none]
      (Hook.mk 0 5 "" 5 "" "") 4).2.1
    [] (Segment.mk 5 9 "" none) [Segment.mk 6 12 "" none] rfl
    (by norm_num) (by simp)

/-- The comparison used by src/hook_analyzer.py line 108-109,
hooks.sort with key virality_score and reverse true: a precedes b when the
score of b is at most the score of a. -/
def hookGE (a b : Hook) : Prop := b.virality_score ≤ a.virality_score

instance : DecidableRel hookGE := fun a b => Int.decLe b.virality_score a.virality_score

instance : IsTotal Hook hookGE :=
  ⟨fun a b => le_total b.virality_score a.virality_score⟩

instance : IsTrans Hook hookGE :=
  ⟨fun _ _ _ hab hbc => le_trans hbc hab⟩

/-- src/hook_analyzer.py lines 108-109: hooks.sort by virality_score,
descending.  The Python sort is guaranteed stable, and a stable sort by a
fixed key is unique as a function of the input list, so insertion sort with
the hookGE comparison computes exactly the same list. -/
def sortHooksByScore (hooks : List Hook) : List Hook :=
  hooks.insertionSort hookGE

/-- src/hook_analyzer.py analyze, lines 101-109 (after payload parsing):
refine the timestamps of every hook, then rank by descending virality. -/
def analyzeRankedHooks (hooks : List Hook) (segments : List Segment) : List Hook :=
  sortHooksByScore (refineTimestamps hooks segments)

/-- Inserting a hook passes only over strictly higher scores, so the
hooks of any fixed score keep their relative order. -/
theorem filter_orderedInsert_score (k : ℤ) (x : Hook) (l : List Hook) :
    (List.orderedInsert hookGE x l).filter (fun h => decide (h.virality_score = k)) =
      if x.virality_score = k
      then x :: l.filter (fun h => decide (h.virality_score = k))
      else l.filter (fun h => decide (h.virality_score = k)) := by
  induction l with
  | nil =>
    by_cases hx : x.virality_score = k <;>
      simp [List.orderedInsert, List.filter_cons, hx]
  | cons b t ih =>
    rw [List.orderedInsert]
    by_cases hr : hookGE x b
    · rw [if_pos hr]
      by_cases hx : x.virality_score = k <;>
        simp [List.filter_cons, hx]
    · rw [if_neg hr]
      have hbx : x.virality_score < b.virality_score := lt_of_not_le hr
      by_cases hx : x.virality_score = k
      · have hb : ¬ b.virality_score = k := by
          intro hbk
          rw [hx] at hbx
          rw [hbk] at hbx
          exact lt_irrefl k hbx
        simp [List.filter_cons, hb, ih, hx]
      · by_cases hb : b.virality_score = k <;>
          simp [List.filter_cons, hb, ih, hx]

/-- Insertion sort by score never reorders hooks of equal score. -/
theorem filter_sortHooks_score (k : ℤ) (l : List Hook) :
    (sortHooksByScore l).filter (fun h => decide (h.virality_score = k)) =
      l.filter (fun h => decide (h.virality_score = k)) := by
  induction l with
  | nil => rfl
  | cons a t ih =>
    show (List.orderedInsert hookGE a (sortHooksByScore t)).filter _ = _
    rw [filter_orderedInsert_score]
    by_cases ha : a.virality_score = k <;>
      simp [List.filter_cons, ha, ih]

/-- C5: the refined output is sorted by virality score in descending order,
and for every score value the hooks carrying it appear in exactly the input
order (the sort is stable). -/
theorem refined_hooks_sorted_stable (hooks : List Hook) (segments : List Segment) :
    List.Sorted hookGE (analyzeRankedHooks hooks segments) ∧
    ∀ k : ℤ, (analyzeRankedHooks hooks segments).filter (fun h => decide (h.virality_score = k)) =
      (hooks.filter (fun h => decide (h.virality_score = k))).map (refineHook segments) := by
  constructor
  · exact List.sorted_insertionSort hookGE (refineTimestamps hooks segments)
  · intro k
    unfold analyzeRankedHooks
    rw [filter_sortHooks_score]
    unfold refineTimestamps
    rw [List.filter_map]
    congr 1

/-- One overlay instruction emitted by the caption scheduler. -/
structure Overlay where
  content : String
  startOffset : ℚ
  duration : ℚ
deriving DecidableEq, Repr

/-- Python str.upper on the basic latin letters used by the source:
uppercase every character of the string. -/
def pyUpper (s : String) : String := String.mk (s.data.map Char.toUpper)

/-- Python str.split with no argument: split on whitespace runs, dropping
empty pieces.  The accumulator holds the characters of the current word in
reverse. -/
def splitWsAux : List Char → List Char → List String
  | [], acc => if acc.isEmpty then [] else [String.mk acc.reverse]
  | c :: cs, acc =>
    if c.isWhitespace then
      if acc.isEmpty then splitWsAux cs []
      else String.mk acc.reverse :: splitWsAux cs []
    else splitWsAux cs (c :: acc)

/-- Python text.split(). -/
def splitWs (s : String) : List String := splitWsAux s.data []

/-- Python str.join applied with a single-space separator, as in
src/text_animator.py lines 185 and 193. -/
def joinSp : List String → String
  | [] => ""
  | [w] => w
  | w :: ws => w ++ " " ++ joinSp ws

/-- Python str.join applied with a line-break separator, as in
src/text_animator.py line 195. -/
def joinNl : List String → String
  | [] => ""
  | [w] => w
  | w :: ws => w ++ "\n" ++ joinNl ws

/-- One iteration of the wrapping loop of src/text_animator.py lines
183-190; the state is (lines, current_line, current_length). -/
def wrapStep : List String × List String × Nat → String → List String × List String × Nat
  | (lines, current_line, current_length), w =>
    if current_length + w.length > 35 then
      (lines ++ [joinSp current_line], [w], w.length)
    else
      (lines, current_line ++ [w], current_length + w.length + 1)

/-- src/text_animator.py lines 178-193: greedy accumulation of words into
lines, then the trailing nonempty current line is appended. -/
def wrapWords (ws : List String) : List String :=
  let st := ws.foldl wrapStep ([], [], 0)
  if st.2.1.isEmpty then st.1 else st.1 ++ [joinSp st.2.1]

/-- src/text_animator.py lines 176-195: text longer than 40 characters is
wrapped and rejoined with line breaks; shorter text is kept as is. -/
def sentence_wrap_text (text : String) : String :=
  if text.length > 40 then joinNl (wrapWords (splitWs text)) else text

/-- src/text_animator.py lines 124-151, the body of _create_word_clips for
one word: skip words starting at or beyond the clip duration, clamp the end,
drop non-positive durations, otherwise emit the uppercased word. -/
def wordClip (max_duration : ℚ) (w : Word) : Option Overlay :=
  if w.start ≥ max_duration then none
  else
    let e := min w.stop max_duration
    let d := e - w.start
    if d ≤ 0 then none
    else some (Overlay.mk (pyUpper w.word) w.start d)

/-- src/text_animator.py lines 109-153, _create_word_clips: one pass over
all words of all segments carrying a words key, in input order. -/
def create_word_clips (segments : List Segment) (max_duration : ℚ) : List Overlay :=
  segments.flatMap fun seg => (seg.words.getD []).filterMap (wordClip max_duration)

/-- src/text_animator.py lines 166-215, the body of _create_sentence_clips
for one segment: skip segments starting at or beyond the clip duration,
uppercase and wrap the text, clamp the end, drop non-positive durations. -/
def sentenceClip (max_duration : ℚ) (seg : Segment) : Option Overlay :=
  if seg.start ≥ max_duration then none
  else
    let text := sentence_wrap_text (pyUpper seg.text)
    let e := min seg.stop max_duration
    let d := e - seg.start
    if d ≤ 0 then none
    else some (Overlay.mk text seg.start d)

/-- src/text_animator.py lines 155-217, _create_sentence_clips: one overlay
per retained segment, in input order. -/
def create_sentence_clips (segments : List Segment) (max_duration : ℚ) : List Overlay :=
  segments.filterMap (sentenceClip max_duration)

/-- The guarantee required of every emitted overlay instruction. -/
def goodOverlay (clip_duration : ℚ) (c : Overlay) : Prop :=
  0 < c.duration ∧ 0 ≤ c.startOffset ∧ c.startOffset + c.duration ≤ clip_duration

instance (clip_duration : ℚ) (c : Overlay) : Decidable (goodOverlay clip_duration c) :=
  inferInstanceAs (Decidable
    (0 < c.duration ∧ 0 ≤ c.startOffset ∧ c.startOffset + c.duration ≤ clip_duration))

/-- Emitted word clips satisfy the bounds. -/
theorem wordClip_good (max_duration : ℚ) (w : Word) (hw : 0 ≤ w.start) (c : Overlay)
    (hc : wordClip max_duration w = some c) : goodOverlay max_duration c := by
  simp only [wordClip] at hc
  split_ifs at hc with h1 h2
  injection hc with hc
  subst hc
  push_neg at h1 h2
  refine ⟨h2, hw, ?_⟩
  have hmm : w.start + (min w.stop max_duration - w.start) = min w.stop max_duration := by ring
  show w.start + (min w.stop max_duration - w.start) ≤ max_duration
  rw [hmm]
  exact min_le_right _ _

/-- Emitted sentence clips satisfy the bounds. -/
theorem sentenceClip_good (max_duration : ℚ) (seg : Segment) (hs : 0 ≤ seg.start) (c : Overlay)
    (hc : sentenceClip max_duration seg = some c) : goodOverlay max_duration c := by
  simp only [sentenceClip] at hc
  split_ifs at hc with h1 h2
  injection hc with hc
  subst hc
  push_neg at h1 h2
  refine ⟨h2, hs, ?_⟩
  have hmm : seg.start + (min seg.stop max_duration - seg.start) = min seg.stop max_duration := by
    ring
  show seg.start + (min seg.stop max_duration - seg.start) ≤ max_duration
  rw [hmm]
  exact min_le_right _ _

/-- C4: in both scheduler modes, with well-formed input, every emitted
overlay instruction has positive duration, non-negative start offset, and
startOffset + duration within the clip duration. -/
theorem scheduler_instruction_bounds (segments : List Segment) (clip_duration : ℚ)
    (hwf : ∀ s ∈ segments, wfSegment s) :
    (∀ c ∈ create_word_clips segments clip_duration, goodOverlay clip_duration c) ∧
    (∀ c ∈ create_sentence_clips segments clip_duration, goodOverlay clip_duration c) := by
  constructor
  · intro c hc
    unfold create_word_clips at hc
    rcases List.mem_flatMap.mp hc with ⟨seg, hseg, hcw⟩
    rcases List.mem_filterMap.mp hcw with ⟨w, hwmem, hwc⟩
    have hwwf : wfWord w := (hwf seg hseg).2.2 w hwmem
    exact wordClip_good clip_duration w hwwf.1 c hwc
  · intro c hc
    unfold create_sentence_clips at hc
    rcases List.mem_filterMap.mp hc with ⟨seg, hseg, hsc⟩
    exact sentenceClip_good clip_duration seg (hwf seg hseg).1 c hsc

/-- Witness for C4: a two-second clip over one segment with one word yields
the single word overlay HI at offset 0 with duration 1, which satisfies the
bounds. -/
theorem scheduler_instruction_bounds_witness :
    goodOverlay 2 (Overlay.mk "HI" 0 1) := by
  have hmem : Overlay.mk "HI" 0 1 ∈
      create_word_clips [Segment.mk 0 3 "Hi" (some [Word.mk 0 1 "Hi"])] 2 := by
    have heq : create_word_clips [Segment.mk 0 3 "Hi" (some [Word.mk 0 1 "Hi"])] 2 =
        [Overlay.mk "HI" 0 1] := by
      simp [create_word_clips, wordClip, List.filterMap_cons, pyUpper]
    rw [heq]
    exact List.mem_singleton.mpr rfl
  exact (scheduler_instruction_bounds [Segment.mk 0 3 "Hi" (some [Word.mk 0 1 "Hi"])] 2
    (by decide)).1 (Overlay.mk "HI" 0 1) hmem

/-- src/text_animator.py lines 286-293, pop_effect: the piecewise scale of
the pop animation as a function of elapsed time. -/
def popScale (t : ℚ) : ℚ :=
  if t < 0.15 then 0.5 + 0.7 * (t / 0.15)
  else if t < 0.25 then 1.2 - 0.2 * ((t - 0.15) / 0.1)
  else 1.0

/-- src/text_animator.py line 296: the pop animation fades opacity in with
crossfadein over 0.1 seconds. -/
def popFadeInDuration : ℚ := 0.1

/-- Spec-side definition (section 4.3 of the spec): the pop scale curve as
the spec states it, to be compared with the curve of the source. -/
def popScaleSpec (t : ℚ) : ℚ :=
  if t < 0.15 then 0.5 + 0.7 * (t / 0.15)
  else if t < 0.25 then 1.2 - 0.2 * ((t - 0.15) / 0.1)
  else 1.0

/-- C9: the pop scale is exactly the piecewise curve of the spec; it is 0.5
at t = 0, 1.2 at t = 0.15, 1.0 at every t ≥ 0.25, and the pop animation
fades opacity in over the first 0.1 seconds. -/
theorem pop_curve_boundaries (t : ℚ) :
    popScale t = popScaleSpec t ∧
    popScale 0 = 0.5 ∧
    popScale 0.15 = 1.2 ∧
    (0.25 ≤ t → popScale t = 1) ∧
    popFadeInDuration = 0.1 := by
  refine ⟨rfl, ?_, ?_, ?_, rfl⟩
  · norm_num [popScale]
  · norm_num [popScale]
  · intro ht
    rw [popScale, if_neg (by linarith), if_neg (by linarith)]
    norm_num

/-- Witness for C9: the pop scale at t = 0.3 is 1. -/
theorem pop_curve_boundaries_witness : popScale 0.3 = 1 :=
  (pop_curve_boundaries 0.3).2.2.2.1 (by norm_num)

/-- A minimal JSON value, as produced by json.loads. -/
inductive Json where
  | obj : List (String × Json) → Json
  | arr : List Json → Json
  | str : String → Json
  | num : ℚ → Json
  | boolean : Bool → Json
  | null : Json
deriving Repr

/-- Python dict.get on the field list of a JSON object. -/
def lookupKey (fields : List (String × Json)) (k : String) : Option Json :=
  (fields.find? fun p => p.1 == k).map Prod.snd

/-- src/hook_analyzer.py lines 101-102, the payload parsing step of analyze:
result comes from json.loads on the LLM response; the argument here is the
outcome of json.loads, where an error value models the json.JSONDecodeError
raised on malformed input — analyze has no handler around it, so the error
propagates.  On a JSON object, result.get with the key hooks and default of
an empty list is applied; on any other JSON value Python dict access raises
an AttributeError, also modelled as an error. -/
def parseHooksStep (loaded : Except String Json) : Except String Json :=
  match loaded with
  | Except.error e => Except.error e
  | Except.ok (Json.obj fields) => Except.ok ((lookupKey fields "hooks").getD (Json.arr []))
  | Except.ok _ => Except.error "AttributeError"

/-- C6 counterexample: a malformed payload (json.loads raises) is not
treated as zero hooks — the exception escapes the parsing step. -/
theorem malformed_payload_escapes :
    parseHooksStep (Except.error "Expecting value: line 1 column 1") ≠
      Except.ok (Json.arr []) := by
  simp [parseHooksStep]

/-- C6 amended: a well-formed JSON object payload missing the hooks key is
treated as zero hooks, while a malformed payload raises a JSON parse error
that escapes the parsing step unhandled. -/
theorem hook_payload_parsing_behavior :
    (∀ fields : List (String × Json), lookupKey fields "hooks" = none →
      parseHooksStep (Except.ok (Json.obj fields)) = Except.ok (Json.arr [])) ∧
    (∀ e : String, parseHooksStep (Except.error e) = Except.error e) := by
  constructor
  · intro fields hnone
    simp [parseHooksStep, hnone]
  · intro e
    rfl

/-- Witness for the amended C6: the empty JSON object yields zero hooks, and
a malformed payload propagates its parse error. -/
theorem hook_payload_parsing_behavior_witness :
    parseHooksStep (Except.ok (Json.obj [])) = Except.ok (Json.arr []) ∧
    parseHooksStep (Except.error "Expecting value") = Except.error "Expecting value" :=
  ⟨hook_payload_parsing_behavior.1 [] rfl, hook_payload_parsing_behavior.2 "Expecting value"⟩

/-- The space-joined length measure of a word list: every word contributes
its own length plus one separating character. -/
def slen (ws : List String) : Nat := (ws.map fun w => w.length + 1).sum

theorem slen_append (a b : List String) : slen (a ++ b) = slen a + slen b := by
  simp [slen]

theorem slen_singleton (w : String) : slen [w] = w.length + 1 := by
  simp [slen]

theorem slen_cons (w : String) (t : List String) : slen (w :: t) = (w.length + 1) + slen t := by
  simp [slen]

/-- The length of a space-join of a nonempty word list is one less than its
slen measure. -/
theorem joinSp_length (ws : List String) (h : ws ≠ []) : (joinSp ws).length + 1 = slen ws := by
  induction ws with
  | nil => contradiction
  | cons w t ih =>
    cases t with
    | nil => simp [joinSp, slen]
    | cons a b =>
      have ht := ih (by simp)
      have hj : joinSp (w :: a :: b) = w ++ " " ++ joinSp (a :: b) := rfl
      rw [hj, String.length_append, String.length_append, slen_cons]
      have hsp : " ".length = 1 := rfl
      omega

/-- The loop invariant of the greedy wrapping fold: every completed line has
at most 36 characters, the bookkeeping length bounds the slen measure of the
still-open line, the bookkeeping length is at most 36, the open line is
empty only in the initial state, and the total slen measure is conserved. -/
def wrapInv (st : List String × List String × Nat) (total : Nat) : Prop :=
  (∀ l ∈ st.1, l.length ≤ 36) ∧
  slen st.2.1 ≤ st.2.2 + 1 ∧
  st.2.2 ≤ 36 ∧
  (st.2.1 = [] → st.1 = [] ∧ st.2.2 = 0) ∧
  slen st.1 + slen st.2.1 = total

/-- One wrapping step preserves the invariant when the incoming word is at
most 35 characters long. -/
theorem wrapStep_inv (st : List String × List String × Nat) (total : Nat) (w : String)
    (hw : w.length ≤ 35) (hinv : wrapInv st total) :
    wrapInv (wrapStep st w) (total + (w.length + 1)) := by
  obtain ⟨lines, cur, curLen⟩ := st
  obtain ⟨ha, hb, hc, hd, he⟩ := hinv
  simp only at ha hb hc hd he
  show wrapInv (wrapStep (lines, cur, curLen) w) _
  rw [wrapStep]
  by_cases hbr : curLen + w.length > 35
  · rw [if_pos hbr]
    have hcur : cur ≠ [] := by
      intro hcnil
      obtain ⟨-, hlen0⟩ := hd hcnil
      omega
    have hj : (joinSp cur).length + 1 = slen cur := joinSp_length cur hcur
    refine ⟨?_, ?_, ?_, ?_, ?_⟩
    · intro l hl
      rcases List.mem_append.mp hl with hl | hl
      · exact ha l hl
      · rw [List.mem_singleton] at hl
        subst hl
        omega
    · show slen [w] ≤ w.length + 1
      rw [slen_singleton]
    · exact hw.trans (by norm_num)
    · intro h1
      simp at h1
    · show slen (lines ++ [joinSp cur]) + slen [w] = total + (w.length + 1)
      rw [slen_append, slen_singleton, slen_singleton]
      omega
  · rw [if_neg hbr]
    push_neg at hbr
    refine ⟨ha, ?_, ?_, ?_, ?_⟩
    · show slen (cur ++ [w]) ≤ (curLen + w.length + 1) + 1
      rw [slen_append, slen_singleton]
      omega
    · show curLen + w.length + 1 ≤ 36
      omega
    · intro h1
      simp at h1
    · show slen lines + slen (cur ++ [w]) = total + (w.length + 1)
      rw [slen_append, slen_singleton]
      omega

/-- The whole wrapping fold preserves the invariant. -/
theorem foldl_wrapStep_inv (ws : List String) :
    ∀ (st : List String × List String × Nat) (total : Nat),
      (∀ w ∈ ws, w.length ≤ 35) → wrapInv st total →
      wrapInv (ws.foldl wrapStep st) (total + slen ws) := by
  induction ws with
  | nil =>
    intro st total _ hinv
    simpa [slen] using hinv
  | cons w t ih =>
    intro st total hws hinv
    have hw := hws w (List.mem_cons_self w t)
    have ht : ∀ x ∈ t, x.length ≤ 35 := fun x hx => hws x (List.mem_cons_of_mem w hx)
    have h2 := ih (wrapStep st w) (total + (w.length + 1)) ht
      (wrapStep_inv st total w hw hinv)
    rw [List.foldl_cons]
    have harith : total + (w.length + 1) + slen t = total + slen (w :: t) := by
      rw [slen_cons]
      omega
    rwa [harith] at h2

/-- The slen measure of a list of lines of at most 36 characters is at most
37 per line. -/
theorem slen_le_of_line_bound (L : List String) (h : ∀ l ∈ L, l.length ≤ 36) :
    slen L ≤ 37 * L.length := by
  induction L with
  | nil => simp [slen]
  | cons a t ih =>
    have ha := h a (List.mem_cons_self a t)
    have ht := ih fun l hl => h l (List.mem_cons_of_mem a hl)
    rw [slen_cons, List.length_cons]
    omega

/-- C8: a 50-character single-spaced sentence none of whose words exceeds 35
characters is wrapped by the sentence scheduler (its length exceeds 40) into
at least two lines, each of at most 36 characters.  The third hypothesis
states that the sentence is exactly the single-space join of its words. -/
theorem sentence_wrapping_bounds (text : String)
    (hlen : text.length = 50)
    (hwords : ∀ w ∈ splitWs text, w.length ≤ 35)
    (hjoin : (joinSp (splitWs text)).length = text.length) :
    sentence_wrap_text text = joinNl (wrapWords (splitWs text)) ∧
    2 ≤ (wrapWords (splitWs text)).length ∧
    ∀ l ∈ wrapWords (splitWs text), l.length ≤ 36 := by
  have h40 : text.length > 40 := by omega
  have hwrap : sentence_wrap_text text = joinNl (wrapWords (splitWs text)) := by
    unfold sentence_wrap_text
    rw [if_pos h40]
  set ws := splitWs text with hws
  have hne : ws ≠ [] := by
    intro h0
    rw [h0] at hjoin
    have hz : (joinSp ([] : List String)).length = 0 := rfl
    omega
  have hslen : slen ws = 51 := by
    have hj := joinSp_length ws hne
    omega
  have hinv0 : wrapInv ([], [], 0) 0 := by
    exact ⟨by simp, by simp [slen], by decide, fun _ => ⟨rfl, rfl⟩, by simp [slen]⟩
  have hinv := foldl_wrapStep_inv ws ([], [], 0) 0 hwords hinv0
  rw [Nat.zero_add, hslen] at hinv
  obtain ⟨ha, hb, hc, hd, he⟩ := hinv
  set st := ws.foldl wrapStep ([], [], 0) with hst
  have hcurne : st.2.1 ≠ [] := by
    intro h0
    obtain ⟨hl0, -⟩ := hd h0
    rw [hl0, h0] at he
    have hz : slen [] = 0 := rfl
    omega
  have hLeq : wrapWords ws = st.1 ++ [joinSp st.2.1] := by
    show (if st.2.1.isEmpty then st.1 else st.1 ++ [joinSp st.2.1]) = _
    rw [if_neg (by simpa [List.isEmpty_iff] using hcurne)]
  have hj := joinSp_length st.2.1 hcurne
  have hbound : ∀ l ∈ wrapWords ws, l.length ≤ 36 := by
    intro l hl
    rw [hLeq] at hl
    rcases List.mem_append.mp hl with hl | hl
    · exact ha l hl
    · rw [List.mem_singleton] at hl
      subst hl
      omega
  have hslenL : slen (wrapWords ws) = 51 := by
    rw [hLeq, slen_append, slen_singleton]
    omega
  have h2 : 2 ≤ (wrapWords ws).length := by
    by_contra hlt
    push_neg at hlt
    have hle := slen_le_of_line_bound (wrapWords ws) hbound
    omega
  exact ⟨hwrap, h2, hbound⟩

/-- Witness for C8: a concrete 50-character uppercase sentence is rewrapped
by the sentence scheduler into at least two lines. -/
theorem sentence_wrapping_bounds_witness :
    sentence_wrap_text "THIS SENTENCE HAS EXACTLY FIFTY CHARACTERS IN ALL!" =
      joinNl (wrapWords (splitWs "THIS SENTENCE HAS EXACTLY FIFTY CHARACTERS IN ALL!")) ∧
    2 ≤ (wrapWords (splitWs "THIS SENTENCE HAS EXACTLY FIFTY CHARACTERS IN ALL!")).length := by
  have h := sentence_wrapping_bounds "THIS SENTENCE HAS EXACTLY FIFTY CHARACTERS IN ALL!"
    (by decide) (by decide) (by decide)
  exact ⟨h.1, h.2.1⟩

end ViralShorts
